import Mathlib

/-!
# Verification of the NekoImageLand image-deduplication pipeline

Shallow embedding of the parts of the repository that the specification
claims talk about, together with proofs (or refutations) of those claims.

* `Stage1` — the two-phase similarity clustering engine
  (`src/stage1/src/main.rs`: `cluster_chunk`, `merge_cluster`, `main`).
* `Stage9` — the cluster triage state machine
  (`src/stage9/src/main.rs`: `find_text_anomalies_clusters`, `extract_clusters`)
  and the GIF static-frame filter (`src/stage9/src/gif_worker.rs`).
* `Stage11` — the mutation planner (`src/stage11/src/main.rs`).
* `NekoUuidM` — SHA-1 based UUID derivation (`src/shared/src/neko_uuid.rs`).
* `PointExplorerM` — the insertion-ordered vector store
  (`src/shared/src/point_explorer.rs`).
* `StructureM` — `NekoPointExt::ext` (`src/shared/src/structure.rs`).

Machine floating point (`f32`) similarity values are embedded as exact
rationals: every claim settled here depends only on how the code compares
similarities against the fixed thresholds, never on rounding behaviour of
a particular similarity value, so the order structure is all that matters.
Rust `Uuid` keys are embedded as natural numbers (only decidable equality
of keys is used by the modelled code), `HashMap` lookup as a function into
`Option`, and `HashSet` / `Vec` contents as lists, with set-like claims
stated up to membership.
-/

namespace Stage1

/-- Point identifier (Rust `uuid::Uuid`); only equality is used. -/
abbrev Uuid := Nat

/-- `HashMap<Uuid, HashMap<Uuid, f32>>` similarity map, as a curried
partial function. -/
abbrev SimMap := Uuid → Uuid → Option Rat

/-- `const THRESHOLD: f32 = 0.985;` -/
def THRESHOLD : Rat := mkRat 985 1000

/-- The lookup
`sim_map.get(&i).and_then(|m| m.get(&j)).copied().or_else(|| sim_map.get(&j).and_then(|m| m.get(&i)).copied())`
performed by both `cluster_chunk` and `merge_cluster`. -/
def simOpt (sim : SimMap) (i j : Uuid) : Option Rat :=
  (sim i j).orElse (fun _ => sim j i)

/-- The looked-up similarity after `.unwrap_or(0.0)`. -/
def simVal (sim : SimMap) (i j : Uuid) : Rat :=
  (simOpt sim i j).getD 0

/-- `cl.iter().all(|&other| { let s = ...; s > THRESHOLD })` for a candidate
id against one existing cluster. -/
def okForCluster (sim : SimMap) (id : Uuid) (cl : List Uuid) : Bool :=
  cl.all fun other => decide (THRESHOLD < simVal sim id other)

/-- The body of the `for &id in ids` loop of `cluster_chunk`: scan clusters
in order, insert into the first fully-similar one, otherwise append a new
singleton cluster. -/
def placeId (sim : SimMap) (id : Uuid) : List (List Uuid) → List (List Uuid)
  | [] => [[id]]
  | cl :: rest =>
      if okForCluster sim id cl then (id :: cl) :: rest
      else cl :: placeId sim id rest

/-- `fn cluster_chunk(ids: &[Uuid], sim_map: ...) -> Vec<HashSet<Uuid>>`. -/
def cluster_chunk (ids : List Uuid) (sim : SimMap) : List (List Uuid) :=
  ids.foldl (fun clusters id => placeId sim id clusters) []

/-- `local.iter().all(|&i| g.iter().all(|&j| { let s = ...; s > THRESHOLD }))`. -/
def crossOk (sim : SimMap) (lc g : List Uuid) : Bool :=
  lc.all fun i => g.all fun j => decide (THRESHOLD < simVal sim i j)

/-- `fn merge_cluster(local, global, sim_map)`: merge the local cluster into
the first global cluster whose every member is similar to every local
member, otherwise push it at the end. -/
def merge_cluster (sim : SimMap) (lc : List Uuid) : List (List Uuid) → List (List Uuid)
  | [] => [lc]
  | g :: rest =>
      if crossOk sim lc g then (g ++ lc) :: rest
      else g :: merge_cluster sim lc rest

/-- The two-phase engine of `stage1::main`: phase 1 clusters each chunk
locally (`cluster_chunk`), the local clusters are concatenated, and phase 2
folds them sequentially into the global cluster list (`merge_cluster`). -/
def twoPhase (chunks : List (List Uuid)) (sim : SimMap) : List (List Uuid) :=
  let locals := (chunks.map (fun c => cluster_chunk c sim)).flatten
  locals.foldl (fun g lc => merge_cluster sim lc g) []

/-- Direction-insensitive clique property actually maintained by the code:
for every ordered pair of distinct members, the lookup from at least one
side exceeds the threshold. -/
def WeakClique (sim : SimMap) (c : List Uuid) : Prop :=
  ∀ i ∈ c, ∀ j ∈ c, i ≠ j →
    THRESHOLD < simVal sim i j ∨ THRESHOLD < simVal sim j i

/-- The similarity map records a single value per unordered pair: entries
present in both directions agree. -/
def SimCoherent (sim : SimMap) : Prop :=
  ∀ i j a b, sim i j = some a → sim j i = some b → a = b

theorem okForCluster_spec {sim : SimMap} {id : Uuid} {cl : List Uuid}
    (h : okForCluster sim id cl = true) :
    ∀ other ∈ cl, THRESHOLD < simVal sim id other := by
  intro other hmem
  have := (List.all_eq_true.mp h) other hmem
  exact of_decide_eq_true this

theorem crossOk_spec {sim : SimMap} {lc g : List Uuid}
    (h : crossOk sim lc g = true) :
    ∀ i ∈ lc, ∀ j ∈ g, THRESHOLD < simVal sim i j := by
  intro i hi j hj
  have := (List.all_eq_true.mp ((List.all_eq_true.mp h) i hi)) j hj
  exact of_decide_eq_true this

theorem placeId_weakClique {sim : SimMap} {id : Uuid} {clusters : List (List Uuid)}
    (h : ∀ c ∈ clusters, WeakClique sim c) :
    ∀ c ∈ placeId sim id clusters, WeakClique sim c := by
  induction clusters with
  | nil =>
      intro c hc
      simp only [placeId, List.mem_singleton] at hc
      subst hc
      intro i hi j hj hne
      simp only [List.mem_singleton] at hi hj
      exact absurd (hi.trans hj.symm) hne
  | cons cl rest ih =>
      intro c hc
      simp only [placeId] at hc
      by_cases hok : okForCluster sim id cl = true
      · rw [if_pos hok] at hc
        rcases List.mem_cons.mp hc with hc | hc
        · subst hc
          intro i hi j hj hne
          rcases List.mem_cons.mp hi with hi1 | hi1
          · rcases List.mem_cons.mp hj with hj1 | hj1
            · exact absurd (hi1.trans hj1.symm) hne
            · rw [hi1]
              exact Or.inl (okForCluster_spec hok j hj1)
          · rcases List.mem_cons.mp hj with hj1 | hj1
            · rw [hj1]
              exact Or.inr (okForCluster_spec hok i hi1)
            · exact h cl (List.mem_cons_self _ _) i hi1 j hj1 hne
        · exact h c (List.mem_cons_of_mem _ hc)
      · rw [if_neg hok] at hc
        rcases List.mem_cons.mp hc with hc | hc
        · subst hc; exact h _ (List.mem_cons_self _ _)
        · exact ih (fun c hc => h c (List.mem_cons_of_mem _ hc)) c hc

theorem foldl_placeId_weakClique {sim : SimMap} (ids : List Uuid)
    (init : List (List Uuid)) (h : ∀ c ∈ init, WeakClique sim c) :
    ∀ c ∈ ids.foldl (fun clusters id => placeId sim id clusters) init,
      WeakClique sim c := by
  induction ids generalizing init with
  | nil => simpa using h
  | cons id rest ih =>
      simp only [List.foldl_cons]
      exact ih _ (placeId_weakClique h)

theorem cluster_chunk_weakClique {sim : SimMap} (ids : List Uuid) :
    ∀ c ∈ cluster_chunk ids sim, WeakClique sim c :=
  foldl_placeId_weakClique ids [] (by simp)

theorem merge_cluster_weakClique {sim : SimMap} {lc : List Uuid}
    {global : List (List Uuid)} (hlc : WeakClique sim lc)
    (h : ∀ c ∈ global, WeakClique sim c) :
    ∀ c ∈ merge_cluster sim lc global, WeakClique sim c := by
  induction global with
  | nil =>
      intro c hc
      simp only [merge_cluster, List.mem_singleton] at hc
      subst hc; exact hlc
  | cons g rest ih =>
      intro c hc
      simp only [merge_cluster] at hc
      by_cases hok : crossOk sim lc g = true
      · rw [if_pos hok] at hc
        rcases List.mem_cons.mp hc with hc | hc
        · subst hc
          intro i hi j hj hne
          rcases List.mem_append.mp hi with hi | hi
          · rcases List.mem_append.mp hj with hj | hj
            · exact h g (List.mem_cons_self _ _) i hi j hj hne
            · exact Or.inr (crossOk_spec hok j hj i hi)
          · rcases List.mem_append.mp hj with hj | hj
            · exact Or.inl (crossOk_spec hok i hi j hj)
            · exact hlc i hi j hj hne
        · exact h c (List.mem_cons_of_mem _ hc)
      · rw [if_neg hok] at hc
        rcases List.mem_cons.mp hc with hc | hc
        · subst hc; exact h _ (List.mem_cons_self _ _)
        · exact ih (fun c hc => h c (List.mem_cons_of_mem _ hc)) c hc

theorem twoPhase_weakClique {sim : SimMap} (chunks : List (List Uuid)) :
    ∀ c ∈ twoPhase chunks sim, WeakClique sim c := by
  unfold twoPhase
  have hlocals : ∀ lc ∈ (chunks.map (fun c => cluster_chunk c sim)).flatten,
      WeakClique sim lc := by
    intro lc hlc
    rcases List.mem_flatten.mp hlc with ⟨l, hl, hmem⟩
    rcases List.mem_map.mp hl with ⟨chunk, _, rfl⟩
    exact cluster_chunk_weakClique chunk lc hmem
  generalize hL : (chunks.map (fun c => cluster_chunk c sim)).flatten = locals at hlocals ⊢
  clear hL
  have : ∀ (locals : List (List Uuid)) (init : List (List Uuid)),
      (∀ lc ∈ locals, WeakClique sim lc) → (∀ c ∈ init, WeakClique sim c) →
      ∀ c ∈ locals.foldl (fun g lc => merge_cluster sim lc g) init,
        WeakClique sim c := by
    intro locals
    induction locals with
    | nil => intro init _ hinit; simpa using hinit
    | cons lc rest ih =>
        intro init hloc hinit
        simp only [List.foldl_cons]
        exact ih _ (fun x hx => hloc x (List.mem_cons_of_mem _ hx))
          (merge_cluster_weakClique (hloc lc (List.mem_cons_self _ _)) hinit)
  exact this _ [] hlocals (by simp)

theorem simVal_pos_some {sim : SimMap} {i j : Uuid}
    (h : THRESHOLD < simVal sim i j) :
    ∃ s, simOpt sim i j = some s ∧ THRESHOLD < s := by
  unfold simVal at h
  cases hopt : simOpt sim i j with
  | none => rw [hopt] at h; exact absurd h (by decide)
  | some s => rw [hopt] at h; exact ⟨s, rfl, h⟩

theorem simOpt_coherent_symm {sim : SimMap} (hco : SimCoherent sim)
    (i j : Uuid) : simOpt sim i j = simOpt sim j i := by
  unfold simOpt
  cases hij : sim i j with
  | none =>
      cases hji : sim j i with
      | none => simp [Option.orElse]
      | some b => simp [Option.orElse]
  | some a =>
      cases hji : sim j i with
      | none => simp [Option.orElse]
      | some b => simp [Option.orElse, hco i j a b hij hji]

/-- **C1.** For every output cluster of the two-phase clustering engine
(phase-1 local chunk clustering, phase-2 sequential global merging) and for
every pair of distinct members `i, j` of that cluster, the similarity map
records a similarity for `(i, j)` and that similarity is at least the
threshold τ = 0.985 (the code in fact demands strictly more than τ).
The hypothesis `SimCoherent` states that the map stores one well-defined
similarity per pair, which the claim presupposes when it speaks of "the
similarity recorded for (i,j)". -/
theorem clique_threshold_invariant (chunks : List (List Uuid)) (sim : SimMap)
    (hco : SimCoherent sim) (C : List Uuid) (hC : C ∈ twoPhase chunks sim)
    (i j : Uuid) (hi : i ∈ C) (hj : j ∈ C) (hne : i ≠ j) :
    ∃ s, simOpt sim i j = some s ∧ THRESHOLD ≤ s := by
  rcases twoPhase_weakClique chunks C hC i hi j hj hne with h | h
  · rcases simVal_pos_some h with ⟨s, hs, hlt⟩
    exact ⟨s, hs, le_of_lt hlt⟩
  · rcases simVal_pos_some h with ⟨s, hs, hlt⟩
    exact ⟨s, (simOpt_coherent_symm hco i j).trans hs, le_of_lt hlt⟩

/-- Concrete similarity map used by the C1 witness: the single entry
`sim 0 1 = 0.99`. -/
def w1sim : SimMap := fun i j => if i = 0 ∧ j = 1 then some (mkRat 99 100) else none

theorem w1sim_coherent : SimCoherent w1sim := by
  intro i j a b h1 h2
  unfold w1sim at h1 h2
  by_cases hij : i = 0 ∧ j = 1
  · obtain ⟨rfl, rfl⟩ := hij
    rw [if_neg (by simp)] at h2
    exact absurd h2 (by simp)
  · rw [if_neg hij] at h1
    exact absurd h1 (by simp)

/-- Witness for C1 at the concrete input `chunks = [[0, 1]]`, `sim = w1sim`:
the engine produces the single cluster `[1, 0]` and the theorem applies. -/
theorem clique_threshold_invariant_witness :
    ∃ s, simOpt w1sim 0 1 = some s ∧ THRESHOLD ≤ s :=
  clique_threshold_invariant [[0, 1]] w1sim w1sim_coherent [1, 0]
    (by decide) 0 1 (by decide) (by decide) (by decide)

/-- The everywhere-missing similarity map. -/
def simNone : SimMap := fun _ _ => none

/-- **C4, counterexample.** At the concrete input `ids = [0, 1]` with an
empty similarity map, the compared pair `(1, 0)` is missing from the map,
yet `cluster_chunk` does not abort: it substitutes the default similarity
`0.0` for the missing lookup and returns the two singleton clusters
normally. This refutes the claim that a missing similarity is fatal. -/
theorem missing_sim_counterexample :
    simOpt simNone 1 0 = none ∧ simVal simNone 1 0 = 0 ∧
      cluster_chunk [0, 1] simNone = [[0], [1]] := by
  refine ⟨rfl, rfl, ?_⟩
  decide

/-- **C4, amended.** When the similarity for a compared pair of ids is
missing from the similarity map, the run does not abort: the comparison
proceeds with the substituted default similarity `0.0`, which fails the
strict threshold test, so the two ids merely never end up in the same
output cluster. -/
theorem missing_sim_amended (chunks : List (List Uuid)) (sim : SimMap)
    (i j : Uuid) (h : simOpt sim i j = none) :
    simVal sim i j = 0 ∧
      ∀ C ∈ twoPhase chunks sim, i ∈ C → j ∈ C → i = j := by
  have hji : simOpt sim j i = none := by
    unfold simOpt at h ⊢
    cases hij : sim i j with
    | none =>
        cases hji2 : sim j i with
        | none => simp [Option.orElse]
        | some b => rw [hij, hji2] at h; simp [Option.orElse] at h
    | some a => rw [hij] at h; simp [Option.orElse] at h
  constructor
  · unfold simVal; rw [h]; rfl
  · intro C hC hi hj
    by_contra hne
    rcases twoPhase_weakClique chunks C hC i hi j hj hne with hlt | hlt
    · unfold simVal at hlt; rw [h] at hlt; exact absurd hlt (by decide)
    · unfold simVal at hlt; rw [hji] at hlt; exact absurd hlt (by decide)

/-- Witness for the amended C4 at the concrete input `chunks = [[0, 1]]`,
`sim = simNone`, pair `(0, 1)`. -/
theorem missing_sim_amended_witness :
    simVal simNone 0 1 = 0 ∧
      ∀ C ∈ twoPhase [[0, 1]] simNone, 0 ∈ C → 1 ∈ C → 0 = 1 :=
  missing_sim_amended [[0, 1]] simNone 0 1 rfl

end Stage1

namespace Stage9

/-- Point identifier (Rust `uuid::Uuid`); only equality is used. -/
abbrev Uuid := Nat

/-- The fields of `(NekoPoint, NekoPointExt)` read by the triage code:
`pt.text_info.is_some()`, `pt.size`, and `ex.ext()`. -/
structure PointMeta where
  hasText : Bool
  size : Option Nat
  ext : String

/-- `points_metadata: HashMap<Uuid, (NekoPoint, NekoPointExt)>`. -/
abbrev MetaMap := Uuid → Option PointMeta

/-- `points_metadata.get(id).map(|(pt, _)| pt.text_info.is_some()).unwrap_or(false)`. -/
def hasTextB (meta : MetaMap) (id : Uuid) : Bool :=
  ((meta id).map (fun m => m.hasText)).getD false

/-- `points_metadata.get(id).map(|(_, ex)| ex.ext() == "gif").unwrap_or(false)`. -/
def isGifB (meta : MetaMap) (id : Uuid) : Bool :=
  ((meta id).map (fun m => m.ext == "gif")).getD false

/-- `points_metadata.get(id).and_then(|(pt, _)| pt.size).unwrap_or(0)`
(the byte-size key used for text-anomaly promotion). -/
def sizeKey (meta : MetaMap) (id : Uuid) : Nat :=
  ((meta id).bind (fun m => m.size)).getD 0

/-- `points_metadata.get(id).map(|(pt, _)| pt.size.unwrap_or_default()).unwrap_or(0)`
(the byte-size key used for the non-GIF survivor). -/
def sizeKeyD (meta : MetaMap) (id : Uuid) : Nat :=
  ((meta id).map (fun m => m.size.getD 0)).getD 0

/-- Abstract decision `cosine_sim(text_vector i, text_vector j) > TEXT_SIM_THRESHOLD`:
the structural claims below hold for every such predicate, so the `f32`
cosine kernel is embedded as an arbitrary boolean relation. -/
abbrev TextSim := Uuid → Uuid → Bool

/-- Loop body of `find_text_anomalies_clusters`: place the id into the
first cluster whose every member passes the similarity test, otherwise
push a new singleton cluster (`cl.push(id)` appends at the end). -/
def placeText (simT : TextSim) (id : Uuid) : List (List Uuid) → List (List Uuid)
  | [] => [[id]]
  | cl :: rest =>
      if cl.all (fun other => simT id other) then (cl ++ [id]) :: rest
      else cl :: placeText simT id rest

/-- `fn find_text_anomalies_clusters(text_points, points_metadata)`:
only ids whose metadata carries text info take part (`id_vec_pairs`). -/
def find_text_anomalies_clusters (textPoints : List Uuid) (meta : MetaMap)
    (simT : TextSim) : List (List Uuid) :=
  (textPoints.filter (hasTextB meta)).foldl
    (fun cls id => placeText simT id cls) []

/-- `iter().max_by_key(key)` (Rust returns the **last** maximal element). -/
def maxFold (key : α → Nat) : Option α → List α → Option α
  | acc, [] => acc
  | none, x :: rest => maxFold key (some x) rest
  | some y, x :: rest =>
      maxFold key (if key y ≤ key x then some x else some y) rest

/-- `l.iter().max_by_key(key)`. -/
def maxByKeyLast (key : α → Nat) (l : List α) : Option α :=
  maxFold key none l

theorem maxFold_mem (key : α → Nat) :
    ∀ (l : List α) (acc : Option α) (a : α),
      maxFold key acc l = some a → a ∈ l ∨ acc = some a := by
  intro l
  induction l with
  | nil =>
      intro acc a h
      cases acc with
      | none => simp [maxFold] at h
      | some y => exact Or.inr (by simpa [maxFold] using h)
  | cons x rest ih =>
      intro acc a h
      cases acc with
      | none =>
          rcases ih (some x) a h with hmem | heq
          · exact Or.inl (List.mem_cons_of_mem _ hmem)
          · exact Or.inl (by simp at heq; simp [heq])
      | some y =>
          simp only [maxFold] at h
          by_cases hle : key y ≤ key x
          · rw [if_pos hle] at h
            rcases ih (some x) a h with hmem | heq
            · exact Or.inl (List.mem_cons_of_mem _ hmem)
            · exact Or.inl (by simp at heq; simp [heq])
          · rw [if_neg hle] at h
            rcases ih (some y) a h with hmem | heq
            · exact Or.inl (List.mem_cons_of_mem _ hmem)
            · exact Or.inr heq

theorem maxFold_isSome_of_acc (key : α → Nat) :
    ∀ (l : List α) (y : α), (maxFold key (some y) l).isSome := by
  intro l
  induction l with
  | nil => intro y; rfl
  | cons x rest ih =>
      intro y
      simp only [maxFold]
      by_cases hle : key y ≤ key x
      · rw [if_pos hle]; exact ih x
      · rw [if_neg hle]; exact ih y

theorem maxByKeyLast_isSome (key : α → Nat) (l : List α) (h : l ≠ []) :
    (maxByKeyLast key l).isSome := by
  cases l with
  | nil => exact absurd rfl h
  | cons x rest => exact maxFold_isSome_of_acc key rest x

theorem maxFold_max (key : α → Nat) :
    ∀ (l : List α) (acc : Option α) (a : α), maxFold key acc l = some a →
      (∀ x ∈ l, key x ≤ key a) ∧ (∀ y, acc = some y → key y ≤ key a) := by
  intro l
  induction l with
  | nil =>
      intro acc a h
      cases acc with
      | none => simp [maxFold] at h
      | some y =>
          have : y = a := by simpa [maxFold] using h
          subst this
          exact ⟨by simp, fun z hz => by simp at hz; simp [hz]⟩
  | cons x rest ih =>
      intro acc a h
      cases acc with
      | none =>
          obtain ⟨hrest, hacc⟩ := ih (some x) a h
          refine ⟨?_, by simp⟩
          intro z hz
          rcases List.mem_cons.mp hz with hz1 | hz1
          · rw [hz1]; exact hacc x rfl
          · exact hrest z hz1
      | some y =>
          simp only [maxFold] at h
          by_cases hle : key y ≤ key x
          · rw [if_pos hle] at h
            obtain ⟨hrest, hacc⟩ := ih (some x) a h
            refine ⟨?_, ?_⟩
            · intro z hz
              rcases List.mem_cons.mp hz with hz1 | hz1
              · rw [hz1]; exact hacc x rfl
              · exact hrest z hz1
            · intro z hz
              have hz2 : z = y := by simpa using hz.symm
              rw [hz2]
              exact le_trans hle (hacc x rfl)
          · rw [if_neg hle] at h
            obtain ⟨hrest, hacc⟩ := ih (some y) a h
            refine ⟨?_, ?_⟩
            · intro z hz
              rcases List.mem_cons.mp hz with hz1 | hz1
              · rw [hz1]
                exact le_trans (le_of_lt (Nat.lt_of_not_le hle)) (hacc y rfl)
              · exact hrest z hz1
            · intro z hz
              have hz2 : z = y := by simpa using hz.symm
              rw [hz2]
              exact hacc y rfl

theorem maxByKeyLast_mem (key : α → Nat) (l : List α) (a : α)
    (h : maxByKeyLast key l = some a) : a ∈ l := by
  rcases maxFold_mem key l none a h with hmem | heq
  · exact hmem
  · simp at heq

theorem maxByKeyLast_max (key : α → Nat) (l : List α) (a : α)
    (h : maxByKeyLast key l = some a) : ∀ x ∈ l, key x ≤ key a :=
  (maxFold_max key l none a h).1

/-- Elements of the greedy text clusters all come from the placed ids. -/
theorem placeText_subset (simT : TextSim) (id : Uuid) :
    ∀ (cls : List (List Uuid)), ∀ c ∈ placeText simT id cls, ∀ x ∈ c,
      x = id ∨ ∃ c0 ∈ cls, x ∈ c0 := by
  intro cls
  induction cls with
  | nil =>
      intro c hc x hx
      simp only [placeText, List.mem_singleton] at hc
      subst hc
      simp only [List.mem_singleton] at hx
      exact Or.inl hx
  | cons cl rest ih =>
      intro c hc x hx
      simp only [placeText] at hc
      by_cases hall : cl.all (fun other => simT id other) = true
      · rw [if_pos hall] at hc
        rcases List.mem_cons.mp hc with hc1 | hc1
        · subst hc1
          rcases List.mem_append.mp hx with hx1 | hx1
          · exact Or.inr ⟨cl, List.mem_cons_self _ _, hx1⟩
          · simp only [List.mem_singleton] at hx1
            exact Or.inl hx1
        · exact Or.inr ⟨c, List.mem_cons_of_mem _ hc1, hx⟩
      · rw [if_neg hall] at hc
        rcases List.mem_cons.mp hc with hc1 | hc1
        · subst hc1
          exact Or.inr ⟨c, List.mem_cons_self _ _, hx⟩
        · rcases ih c hc1 x hx with h1 | ⟨c0, hc0, hx0⟩
          · exact Or.inl h1
          · exact Or.inr ⟨c0, List.mem_cons_of_mem _ hc0, hx0⟩

theorem foldl_placeText_subset (simT : TextSim) :
    ∀ (ids : List Uuid) (init : List (List Uuid)),
      ∀ c ∈ ids.foldl (fun cls id => placeText simT id cls) init, ∀ x ∈ c,
        x ∈ ids ∨ ∃ c0 ∈ init, x ∈ c0 := by
  intro ids
  induction ids with
  | nil => intro init c hc x hx; exact Or.inr ⟨c, hc, hx⟩
  | cons id rest ih =>
      intro init c hc x hx
      simp only [List.foldl_cons] at hc
      rcases ih (placeText simT id init) c hc x hx with h1 | ⟨c0, hc0, hx0⟩
      · exact Or.inl (List.mem_cons_of_mem _ h1)
      · rcases placeText_subset simT id init c0 hc0 x hx0 with h2 | ⟨c1, hc1, hx1⟩
        · exact Or.inl (by rw [h2]; exact List.mem_cons_self _ _)
        · exact Or.inr ⟨c1, hc1, hx1⟩

theorem find_text_anomalies_clusters_subset (textPoints : List Uuid)
    (meta : MetaMap) (simT : TextSim) :
    ∀ c ∈ find_text_anomalies_clusters textPoints meta simT, ∀ x ∈ c,
      x ∈ textPoints := by
  intro c hc x hx
  rcases foldl_placeText_subset simT _ [] c hc x hx with h1 | ⟨c0, hc0, _⟩
  · exact List.mem_of_mem_filter h1
  · simp at hc0

/-- Promotion step of `extract_clusters`: from each text-anomaly cluster the
(last) point of maximal byte-size (`max_by_key`, then `.unwrap()`; the
clusters produced by the greedy pass are never empty, which the `filterMap`
embedding reflects). -/
def textAnomaliesOf (clusters : List (List Uuid)) (meta : MetaMap) : List Uuid :=
  clusters.filterMap (fun cl => maxByKeyLast (sizeKey meta) cl)

/-- `only_text_uuids`: members of the cluster whose metadata has text info. -/
def onlyText (cursor : List Uuid) (meta : MetaMap) : List Uuid :=
  cursor.filter (hasTextB meta)

/-- `let text_points = (!only_text_uuids.is_empty()).then_some(only_text_uuids);` -/
def textPointsOpt (cursor : List Uuid) (meta : MetaMap) : Option (List Uuid) :=
  if (onlyText cursor meta).isEmpty then none else some (onlyText cursor meta)

/-- The `text_anomalies` option: per-cluster maxima of the greedy text
clustering, present exactly when there are text points. -/
def anomOpt (cursor : List Uuid) (meta : MetaMap) (simT : TextSim) :
    Option (List Uuid) :=
  (textPointsOpt cursor meta).map
    (fun tp => textAnomaliesOf (find_text_anomalies_clusters tp meta simT) meta)

/-- `non_text_anomalies_set = cursor_ref.difference(&text_anomalies_set)`. -/
def nonTextList (cursor : List Uuid) (meta : MetaMap) (simT : TextSim) :
    List Uuid :=
  cursor.filter (fun id => !(((anomOpt cursor meta simT).getD []).contains id))

/-- Early-return test
`text_points_size == cursor.len() && text_points == text_anomalies`. -/
def earlyB (cursor : List Uuid) (meta : MetaMap) (simT : TextSim) : Bool :=
  (((textPointsOpt cursor meta).map List.length).getD 0 == cursor.length)
    && (textPointsOpt cursor meta == anomOpt cursor meta simT)

/-- The `Option<HashSet<_>>` accumulation of stage 2: the option is `Some`
exactly when at least one element was inserted. -/
def optionize (l : List Uuid) : Option (List Uuid) :=
  if l.isEmpty then none else some l

/-- Stage 3 of `extract_clusters` (`gif_spilt`): decide the GIF triage group
and the kept survivor from the GIF/non-GIF split of the left-over pool. -/
def gifSplit (gifOpt nonGifOpt : Option (List Uuid)) (meta : MetaMap) :
    Option (List Uuid) × Option Uuid :=
  match gifOpt, nonGifOpt with
  | some gif, _ =>
      match gif with
      | [] => (some gif, none)
      | [g] => (none, some g)
      | _ :: _ :: _ => (some gif, none)
  | none, nonGif =>
      (none, nonGif.bind (fun hs => maxByKeyLast (sizeKeyD meta) hs))

/-- GIF members of the left-over pool (`gif_points_in_left_points`). -/
def gifsOf (cursor : List Uuid) (meta : MetaMap) (simT : TextSim) : List Uuid :=
  (nonTextList cursor meta simT).filter (isGifB meta)

/-- Non-GIF members of the left-over pool (`non_gif_points_in_left_points`). -/
def nonGifsOf (cursor : List Uuid) (meta : MetaMap) (simT : TextSim) : List Uuid :=
  (nonTextList cursor meta simT).filter (fun id => !(isGifB meta id))

/-- The `gif_spilt` result computed inside `extract_clusters`. -/
def gsOf (cursor : List Uuid) (meta : MetaMap) (simT : TextSim) :
    Option (List Uuid) × Option Uuid :=
  gifSplit (optionize (gifsOf cursor meta simT))
    (optionize (nonGifsOf cursor meta simT)) meta

/-- The `delete_set` of stage 4: the left-over pool minus the triage GIF
group (`difference`) and minus the kept survivor (`remove`). -/
def delListOf (cursor : List Uuid) (meta : MetaMap) (simT : TextSim) :
    List Uuid :=
  let nonText := nonTextList cursor meta simT
  let del0 := match (gsOf cursor meta simT).1 with
    | some gifSet => nonText.filter (fun id => !(gifSet.contains id))
    | none => nonText
  match (gsOf cursor meta simT).2 with
  | some kept => del0.filter (fun id => !(id == kept))
  | none => del0

/-- The per-cluster body of `extract_clusters`: returns
`(kept_text_anomalies, to_triage_gifs, kept_non_gif, other_delete)`. -/
def extract_cluster (cursor : List Uuid) (meta : MetaMap) (simT : TextSim) :
    Option (List Uuid) × Option (List Uuid) × Option Uuid × Option (List Uuid) :=
  if earlyB cursor meta simT then
    (anomOpt cursor meta simT, none, none, some (nonTextList cursor meta simT))
  else
    (anomOpt cursor meta simT, (gsOf cursor meta simT).1, (gsOf cursor meta simT).2,
      if (delListOf cursor meta simT).isEmpty then none
      else some (delListOf cursor meta simT))

/-- `fn extract_clusters`: the triage applied to every input cluster. -/
def extract_clusters (pointsClusters : List (List Uuid)) (meta : MetaMap)
    (simT : TextSim) :
    List (Option (List Uuid) × Option (List Uuid) × Option Uuid × Option (List Uuid)) :=
  pointsClusters.map (fun cursor => extract_cluster cursor meta simT)

/-- Members of an optional id list. -/
def optL (o : Option (List Uuid)) : List Uuid := o.getD []

/-- Members of an optional single id. -/
def optU : Option Uuid → List Uuid
  | none => []
  | some x => [x]

theorem anomOpt_subset (cursor : List Uuid) (meta : MetaMap) (simT : TextSim) :
    ∀ x ∈ optL (anomOpt cursor meta simT), x ∈ cursor := by
  intro x hx
  unfold optL anomOpt at hx
  cases htp : textPointsOpt cursor meta with
  | none => rw [htp] at hx; simp at hx
  | some tp =>
      rw [htp] at hx
      have hx2 : x ∈ (find_text_anomalies_clusters tp meta simT).filterMap
          (fun cl => maxByKeyLast (sizeKey meta) cl) := hx
      rcases List.mem_filterMap.mp hx2 with ⟨cl, hcl, hmax⟩
      have hxcl : x ∈ cl := maxByKeyLast_mem _ cl x hmax
      have hxtp : x ∈ tp := find_text_anomalies_clusters_subset tp meta simT cl hcl x hxcl
      have : tp = onlyText cursor meta := by
        unfold textPointsOpt at htp
        by_cases he : (onlyText cursor meta).isEmpty
        · rw [if_pos he] at htp; exact absurd htp (by simp)
        · rw [if_neg he] at htp; simpa using htp.symm
      rw [this] at hxtp
      exact List.mem_of_mem_filter hxtp

theorem nonTextList_iff (cursor : List Uuid) (meta : MetaMap) (simT : TextSim) :
    ∀ x, x ∈ nonTextList cursor meta simT ↔
      x ∈ cursor ∧ x ∉ optL (anomOpt cursor meta simT) := by
  intro x
  unfold nonTextList optL
  simp [List.mem_filter]

theorem gifsOf_iff (cursor : List Uuid) (meta : MetaMap) (simT : TextSim) :
    ∀ x, x ∈ gifsOf cursor meta simT ↔
      x ∈ nonTextList cursor meta simT ∧ isGifB meta x = true := by
  intro x
  unfold gifsOf
  simp [List.mem_filter]

theorem nonGifsOf_iff (cursor : List Uuid) (meta : MetaMap) (simT : TextSim) :
    ∀ x, x ∈ nonGifsOf cursor meta simT ↔
      x ∈ nonTextList cursor meta simT ∧ isGifB meta x = false := by
  intro x
  unfold nonGifsOf
  simp [List.mem_filter]

/-- The four output regions are pairwise disjoint and, together, are exactly
the input cluster (membership-wise; the code returns `HashSet`-backed lists). -/
def TriagePartition (cursor : List Uuid)
    (r : Option (List Uuid) × Option (List Uuid) × Option Uuid × Option (List Uuid)) :
    Prop :=
  (∀ x, x ∈ cursor ↔
    (x ∈ optL r.1 ∨ x ∈ optL r.2.1 ∨ x ∈ optU r.2.2.1 ∨ x ∈ optL r.2.2.2)) ∧
  (∀ x, x ∈ optL r.1 →
    x ∉ optL r.2.1 ∧ x ∉ optU r.2.2.1 ∧ x ∉ optL r.2.2.2) ∧
  (∀ x, x ∈ optL r.2.1 → x ∉ optU r.2.2.1 ∧ x ∉ optL r.2.2.2) ∧
  (∀ x, x ∈ optU r.2.2.1 → x ∉ optL r.2.2.2)

theorem mem_optL_if (l : List Uuid) (x : Uuid) :
    x ∈ optL (if l.isEmpty then none else some l) ↔ x ∈ l := by
  cases l with
  | nil => simp [optL]
  | cons a t => simp [optL]

theorem partition_helper1 (cursor : List Uuid) (meta : MetaMap) (simT : TextSim)
    (d : Option (List Uuid))
    (hd : ∀ x, x ∈ optL d ↔ x ∈ nonTextList cursor meta simT) :
    TriagePartition cursor (anomOpt cursor meta simT, none, none, d) := by
  have hnt := nonTextList_iff cursor meta simT
  have hanom := anomOpt_subset cursor meta simT
  refine ⟨?_, ?_, ?_, ?_⟩
  · intro x
    constructor
    · intro hx
      by_cases hxa : x ∈ optL (anomOpt cursor meta simT)
      · exact Or.inl hxa
      · exact Or.inr (Or.inr (Or.inr ((hd x).mpr ((hnt x).mpr ⟨hx, hxa⟩))))
    · intro hx
      rcases hx with h | h | h | h
      · exact hanom x h
      · simp [optL] at h
      · simp [optU] at h
      · exact ((hnt x).mp ((hd x).mp h)).1
  · intro x hx
    refine ⟨by simp [optL], by simp [optU], ?_⟩
    intro hc
    exact ((hnt x).mp ((hd x).mp hc)).2 hx
  · intro x hx; simp [optL] at hx
  · intro x hx; simp [optU] at hx

theorem partition_helper2 (cursor : List Uuid) (meta : MetaMap) (simT : TextSim)
    (k : Uuid) (d : Option (List Uuid))
    (hk : k ∈ nonTextList cursor meta simT)
    (hd : ∀ x, x ∈ optL d ↔ x ∈ nonTextList cursor meta simT ∧ x ≠ k) :
    TriagePartition cursor (anomOpt cursor meta simT, none, some k, d) := by
  have hnt := nonTextList_iff cursor meta simT
  have hanom := anomOpt_subset cursor meta simT
  refine ⟨?_, ?_, ?_, ?_⟩
  · intro x
    constructor
    · intro hx
      by_cases hxa : x ∈ optL (anomOpt cursor meta simT)
      · exact Or.inl hxa
      · have hxnt : x ∈ nonTextList cursor meta simT := (hnt x).mpr ⟨hx, hxa⟩
        by_cases hxk : x = k
        · exact Or.inr (Or.inr (Or.inl (by simp [optU, hxk])))
        · exact Or.inr (Or.inr (Or.inr ((hd x).mpr ⟨hxnt, hxk⟩)))
    · intro hx
      rcases hx with h | h | h | h
      · exact hanom x h
      · simp [optL] at h
      · have hxk : x = k := by simpa [optU] using h
        rw [hxk]
        exact ((hnt k).mp hk).1
      · exact ((hnt x).mp ((hd x).mp h).1).1
  · intro x hx
    refine ⟨by simp [optL], ?_, ?_⟩
    · intro hc
      have hxk : x = k := by simpa [optU] using hc
      exact ((hnt k).mp hk).2 (hxk ▸ hx)
    · intro hc
      exact ((hnt x).mp ((hd x).mp hc).1).2 hx
  · intro x hx; simp [optL] at hx
  · intro x hx
    have hxk : x = k := by simpa [optU] using hx
    intro hc
    exact ((hd x).mp hc).2 hxk

theorem partition_helper3 (cursor : List Uuid) (meta : MetaMap) (simT : TextSim)
    (G : List Uuid) (d : Option (List Uuid))
    (hGsub : ∀ x ∈ G, x ∈ nonTextList cursor meta simT)
    (hd : ∀ x, x ∈ optL d ↔ x ∈ nonTextList cursor meta simT ∧ x ∉ G) :
    TriagePartition cursor (anomOpt cursor meta simT, some G, none, d) := by
  have hnt := nonTextList_iff cursor meta simT
  have hanom := anomOpt_subset cursor meta simT
  refine ⟨?_, ?_, ?_, ?_⟩
  · intro x
    constructor
    · intro hx
      by_cases hxa : x ∈ optL (anomOpt cursor meta simT)
      · exact Or.inl hxa
      · have hxnt : x ∈ nonTextList cursor meta simT := (hnt x).mpr ⟨hx, hxa⟩
        by_cases hxG : x ∈ G
        · exact Or.inr (Or.inl (by simpa [optL] using hxG))
        · exact Or.inr (Or.inr (Or.inr ((hd x).mpr ⟨hxnt, hxG⟩)))
    · intro hx
      rcases hx with h | h | h | h
      · exact hanom x h
      · have hxG : x ∈ G := by simpa [optL] using h
        exact ((hnt x).mp (hGsub x hxG)).1
      · simp [optU] at h
      · exact ((hnt x).mp ((hd x).mp h).1).1
  · intro x hx
    refine ⟨?_, by simp [optU], ?_⟩
    · intro hc
      have hxG : x ∈ G := by simpa [optL] using hc
      exact ((hnt x).mp (hGsub x hxG)).2 hx
    · intro hc
      exact ((hnt x).mp ((hd x).mp hc).1).2 hx
  · intro x hx
    refine ⟨by simp [optU], ?_⟩
    intro hc
    have hxG : x ∈ G := by simpa [optL] using hx
    exact ((hd x).mp hc).2 hxG
  · intro x hx; simp [optU] at hx

/-- **C2.** For every input cluster, the four lists returned by the cluster
triage (`kept_text_anomalies`, `to_triage_gifs`, `kept_non_gif`,
`other_need_delete`) are pairwise disjoint and their union equals the input
cluster. -/
theorem triage_partition (cursor : List Uuid) (meta : MetaMap) (simT : TextSim) :
    TriagePartition cursor (extract_cluster cursor meta simT) := by
  by_cases hearly : earlyB cursor meta simT = true
  · have hr : extract_cluster cursor meta simT =
        (anomOpt cursor meta simT, none, none,
          some (nonTextList cursor meta simT)) := by
      unfold extract_cluster
      rw [if_pos hearly]
    rw [hr]
    exact partition_helper1 cursor meta simT _ (fun x => by simp [optL])
  · rcases hG : gifsOf cursor meta simT with _ | ⟨g1, gtail⟩
    · rcases hN : nonGifsOf cursor meta simT with _ | ⟨n1, ntail⟩
      · have hgs : gsOf cursor meta simT = (none, none) := by
          unfold gsOf
          rw [hG, hN]
          rfl
        have hdel : delListOf cursor meta simT = nonTextList cursor meta simT := by
          unfold delListOf
          rw [hgs]
        have hr : extract_cluster cursor meta simT =
            (anomOpt cursor meta simT, none, none,
              if (nonTextList cursor meta simT).isEmpty then none
              else some (nonTextList cursor meta simT)) := by
          unfold extract_cluster
          rw [if_neg hearly, hgs, hdel]
        rw [hr]
        exact partition_helper1 cursor meta simT _ (fun x => mem_optL_if _ x)
      · obtain ⟨k, hk⟩ := Option.isSome_iff_exists.mp
          (maxByKeyLast_isSome (sizeKeyD meta) (nonGifsOf cursor meta simT)
            (by rw [hN]; simp))
        have hgs : gsOf cursor meta simT = (none, some k) := by
          unfold gsOf
          rw [hG]
          cases hNn : optionize (nonGifsOf cursor meta simT) with
          | none =>
              unfold optionize at hNn
              rw [hN] at hNn
              simp at hNn
          | some l =>
              unfold optionize at hNn
              rw [hN] at hNn
              rw [if_neg (by simp)] at hNn
              have hl : l = nonGifsOf cursor meta simT := by
                rw [hN]; exact (Option.some_inj.mp hNn).symm
              rw [hl]
              have hred : gifSplit (optionize []) (some (nonGifsOf cursor meta simT)) meta
                  = ((none : Option (List Uuid)),
                     maxByKeyLast (sizeKeyD meta) (nonGifsOf cursor meta simT)) := rfl
              rw [hred, hk]
        have hkmem : k ∈ nonTextList cursor meta simT := by
          have hkN : k ∈ nonGifsOf cursor meta simT := maxByKeyLast_mem _ _ _ hk
          exact ((nonGifsOf_iff cursor meta simT k).mp hkN).1
        have hdel : delListOf cursor meta simT =
            (nonTextList cursor meta simT).filter (fun id => !(id == k)) := by
          unfold delListOf
          rw [hgs]
        have hr : extract_cluster cursor meta simT =
            (anomOpt cursor meta simT, none, some k,
              if (delListOf cursor meta simT).isEmpty then none
              else some (delListOf cursor meta simT)) := by
          unfold extract_cluster
          rw [if_neg hearly, hgs]
        rw [hr]
        refine partition_helper2 cursor meta simT k _ hkmem ?_
        intro x
        rw [hdel, mem_optL_if]
        simp [List.mem_filter]
    · cases gtail with
      | nil =>
          have hgs : gsOf cursor meta simT = (none, some g1) := by
            unfold gsOf
            rw [hG]
            rfl
          have hkmem : g1 ∈ nonTextList cursor meta simT := by
            have hg1 : g1 ∈ gifsOf cursor meta simT := by
              rw [hG]; exact List.mem_cons_self _ _
            exact ((gifsOf_iff cursor meta simT g1).mp hg1).1
          have hdel : delListOf cursor meta simT =
              (nonTextList cursor meta simT).filter (fun id => !(id == g1)) := by
            unfold delListOf
            rw [hgs]
          have hr : extract_cluster cursor meta simT =
              (anomOpt cursor meta simT, none, some g1,
                if (delListOf cursor meta simT).isEmpty then none
                else some (delListOf cursor meta simT)) := by
            unfold extract_cluster
            rw [if_neg hearly, hgs]
          rw [hr]
          refine partition_helper2 cursor meta simT g1 _ hkmem ?_
          intro x
          rw [hdel, mem_optL_if]
          simp [List.mem_filter]
      | cons g2 gtail2 =>
          have hgs : gsOf cursor meta simT = (some (g1 :: g2 :: gtail2), none) := by
            unfold gsOf
            rw [hG]
            rfl
          have hdel : delListOf cursor meta simT =
              (nonTextList cursor meta simT).filter
                (fun id => !((g1 :: g2 :: gtail2).contains id)) := by
            unfold delListOf
            rw [hgs]
          have hr : extract_cluster cursor meta simT =
              (anomOpt cursor meta simT, some (g1 :: g2 :: gtail2), none,
                if (delListOf cursor meta simT).isEmpty then none
                else some (delListOf cursor meta simT)) := by
            unfold extract_cluster
            rw [if_neg hearly, hgs]
          rw [hr]
          refine partition_helper3 cursor meta simT _ _ ?_ ?_
          · intro x hx
            have hxg : x ∈ gifsOf cursor meta simT := by rw [hG]; exact hx
            exact ((gifsOf_iff cursor meta simT x).mp hxg).1
          · intro x
            rw [hdel, mem_optL_if]
            simp [List.mem_filter]

/-- **C5.** Survivor selection over the non-anomaly pool split into GIFs G
and non-GIFs N (the pipeline hands the groups to `gif_spilt` wrapped in an
`Option` that is `Some` exactly when the group is non-empty): if |G| ≥ 2
the whole GIF group goes to triage and no survivor is kept; if |G| = 1 the
single GIF becomes the kept survivor and nothing goes to triage; if G is
empty and N is non-empty the kept survivor is an element of N of maximal
metadata byte-size. -/
theorem survivor_selection (G N : List Uuid) (meta : MetaMap) :
    (2 ≤ G.length →
      gifSplit (optionize G) (optionize N) meta = (some G, none)) ∧
    (G.length = 1 →
      gifSplit (optionize G) (optionize N) meta = (none, G.head?)) ∧
    (G = [] → N ≠ [] →
      ∃ k, gifSplit (optionize G) (optionize N) meta = (none, some k) ∧
        k ∈ N ∧ ∀ x ∈ N, sizeKeyD meta x ≤ sizeKeyD meta k) := by
  refine ⟨?_, ?_, ?_⟩
  · intro h2
    cases G with
    | nil => simp at h2
    | cons g1 t =>
        cases t with
        | nil => simp at h2
        | cons g2 t2 => rfl
  · intro h1
    cases G with
    | nil => simp at h1
    | cons g1 t =>
        cases t with
        | nil => rfl
        | cons g2 t2 => simp at h1
  · intro hG hN
    subst hG
    cases N with
    | nil => exact absurd rfl hN
    | cons n1 t =>
        obtain ⟨k, hk⟩ := Option.isSome_iff_exists.mp
          (maxByKeyLast_isSome (sizeKeyD meta) (n1 :: t) (by simp))
        refine ⟨k, ?_, maxByKeyLast_mem _ _ _ hk, maxByKeyLast_max _ _ _ hk⟩
        have hred : gifSplit (optionize []) (optionize (n1 :: t)) meta
            = ((none : Option (List Uuid)), maxByKeyLast (sizeKeyD meta) (n1 :: t)) := rfl
        rw [hred, hk]

/-- Witness for C5 at concrete inputs: G of size 2, of size 1, and empty
with N = [7, 8] under the empty metadata map (both sizes default to 0, so
the last maximal element 8 is kept). -/
theorem survivor_selection_witness :
    gifSplit (optionize [5, 6]) (optionize [7]) (fun _ => none) = (some [5, 6], none) ∧
    gifSplit (optionize [5]) (optionize [7]) (fun _ => none) = (none, some 5) ∧
    (∃ k, gifSplit (optionize []) (optionize [7, 8]) (fun _ => none) = (none, some k) ∧
      k ∈ [7, 8] ∧
      ∀ x ∈ [7, 8], sizeKeyD (fun _ => none) x ≤ sizeKeyD (fun _ => none) k) :=
  ⟨(survivor_selection [5, 6] [7] (fun _ => none)).1 (by decide),
   by simpa using (survivor_selection [5] [7] (fun _ => none)).2.1 rfl,
   (survivor_selection [] [7, 8] (fun _ => none)).2.2 rfl (by decide)⟩

/-! ### GIF static-frame filter (`src/stage9/src/gif_worker.rs`)

File decoding is embedded as already-decoded data: a GIF carries the
perceptual hashes of its frames and the outcome of `process_single`. -/

/-- A perceptual hash (gradient hash, 32×32), as its bit vector. -/
abbrev PHash := List Bool

/-- `ImageHash::dist`: Hamming distance between the hash bit vectors. -/
def hashDist (a b : PHash) : Nat :=
  (List.zipWith (fun x y => x != y) a b).count true

/-- A GIF as `process_pair` sees it: its id, the perceptual hashes of its
decoded frames, and the result of `process_single` (`none` standing for an
`InternalImageError` / `InternalIOError`). -/
structure GifData where
  uuid : Uuid
  frames : List PHash
  clipFrames : Option (List (List Nat))
  deriving DecidableEq

/-- `GifWorker::judge_gif_frame` on the decoded frames: `frames.len() <= 1`
is static; otherwise `split_first` and require every later frame within
hash distance `< 5` of the first. -/
def judge_gif_frame (frames : List PHash) : Bool :=
  if frames.length ≤ 1 then true
  else
    match frames with
    | [] => true
    | first :: rest => rest.all (fun h => decide (hashDist first h < 5))

/-- `GifWorker::process_pair` routing: static GIFs are filtered into
`discard_same_frame_gif_id`; each remaining GIF goes to
`prepare_clip_gif_pair` when `process_single` succeeds and to
`invalid_gif_id` on an image/IO error. Returns
`(invalid_gif_id, discard_same_frame_gif_id, prepare_clip_gif_pair)` ids. -/
def process_pair (gifs : List GifData) :
    Option (List Uuid) × Option (List Uuid) × Option (List Uuid) :=
  let discard := gifs.filter (fun g => judge_gif_frame g.frames)
  let rest := gifs.filter (fun g => !(judge_gif_frame g.frames))
  let invalid := rest.filter (fun g => g.clipFrames.isNone)
  let prepare := rest.filter (fun g => g.clipFrames.isSome)
  (optionize (invalid.map (fun g => g.uuid)),
   optionize (discard.map (fun g => g.uuid)),
   optionize (prepare.map (fun g => g.uuid)))

/-- The claimed static condition: at most one frame, or every non-first
frame strictly within hash distance 5 of the first frame. -/
def SpecStatic (frames : List PHash) : Prop :=
  frames.length ≤ 1 ∨ ∀ h ∈ frames.tail, hashDist frames.headI h < 5

theorem judge_gif_frame_iff (frames : List PHash) :
    judge_gif_frame frames = true ↔ SpecStatic frames := by
  cases frames with
  | nil => simp [judge_gif_frame, SpecStatic]
  | cons first rest =>
      cases rest with
      | nil => simp [judge_gif_frame, SpecStatic]
      | cons h2 t2 =>
          unfold judge_gif_frame SpecStatic
          rw [if_neg (by simp)]
          simp [List.all_eq_true]

theorem mem_optL_optionize (l : List Uuid) (x : Uuid) :
    x ∈ optL (optionize l) ↔ x ∈ l :=
  mem_optL_if l x

theorem mem_filter_map_uuid {gifs : List GifData}
    (hnd : (gifs.map GifData.uuid).Nodup) {g : GifData} (hg : g ∈ gifs)
    (p : GifData → Bool) :
    g.uuid ∈ (gifs.filter p).map GifData.uuid ↔ p g = true := by
  constructor
  · intro hmem
    rcases List.mem_map.mp hmem with ⟨g2, hg2, huid⟩
    have hg2mem : g2 ∈ gifs := List.mem_of_mem_filter hg2
    have : g2 = g := List.inj_on_of_nodup_map hnd hg2mem hg huid
    rw [← this]
    exact (List.mem_filter.mp hg2).2
  · intro hp
    exact List.mem_map.mpr ⟨g, List.mem_filter.mpr ⟨hg, hp⟩, rfl⟩

/-- **C6.** A GIF of a triage pair is routed to `discard_same_frame_gif_id`
iff it is static — it has at most one frame, or every non-first frame is
strictly within perceptual-hash distance 5 of the first — and a static GIF
never reaches `prepare_clip_gif_pair`. -/
theorem static_gif_filter (gifs : List GifData)
    (hnd : (gifs.map GifData.uuid).Nodup) (g : GifData) (hg : g ∈ gifs) :
    (g.uuid ∈ optL (process_pair gifs).2.1 ↔ SpecStatic g.frames) ∧
    (SpecStatic g.frames → g.uuid ∉ optL (process_pair gifs).2.2) := by
  have hdis : (process_pair gifs).2.1 =
      optionize ((gifs.filter (fun g => judge_gif_frame g.frames)).map
        (fun g => g.uuid)) := rfl
  have hprep : (process_pair gifs).2.2 =
      optionize (((gifs.filter (fun g => !(judge_gif_frame g.frames))).filter
        (fun g => g.clipFrames.isSome)).map (fun g => g.uuid)) := rfl
  constructor
  · rw [hdis, mem_optL_optionize]
    rw [show ((fun g => judge_gif_frame g.frames) : GifData → Bool)
      = (fun g => judge_gif_frame (GifData.frames g)) from rfl]
    rw [mem_filter_map_uuid hnd hg]
    exact judge_gif_frame_iff g.frames
  · intro hstatic
    rw [hprep, mem_optL_optionize]
    intro hmem
    rcases List.mem_map.mp hmem with ⟨g2, hg2, huid⟩
    have hg2rest := List.mem_of_mem_filter hg2
    have hg2mem : g2 ∈ gifs := List.mem_of_mem_filter hg2rest
    have hg2eq : g2 = g := List.inj_on_of_nodup_map hnd hg2mem hg huid
    have hnot : (!(judge_gif_frame g2.frames)) = true :=
      (List.mem_filter.mp hg2rest).2
    rw [hg2eq] at hnot
    rw [← judge_gif_frame_iff] at hstatic
    simp [hstatic] at hnot

/-- First frame and a near-identical second frame (Hamming distance 1):
the GIF is static and lands in the discard group, not the CLIP group. -/
def gifA : GifData :=
  { uuid := 1
    frames := [[true, false], [true, true]]
    clipFrames := some [[0]] }

/-- Witness for C6 at the concrete one-GIF pair `[gifA]`. -/
theorem static_gif_filter_witness :
    (Stage9.gifA.uuid ∈ optL (process_pair [gifA]).2.1 ↔ SpecStatic gifA.frames) ∧
    (SpecStatic gifA.frames → gifA.uuid ∉ optL (process_pair [gifA]).2.2) :=
  static_gif_filter [gifA] (by decide) gifA (by decide)

end Stage9

namespace NekoUuidM

/-! ### `src/shared/src/neko_uuid.rs`

`NekoUuid::generate` is `Uuid::new_v5(namespace, hex(sha1(data)))` with
`namespace = Uuid::new_v5(NAMESPACE_DNS, "github.com/hv0905/NekoImageGallery")`.
Bytes are embedded as naturals below 256 and 32-bit words as naturals
reduced modulo `2^32`; SHA-1 and the RFC 4122 v5 construction used by the
`sha1` and `uuid` crates are embedded in full. -/

/-- `2^32`. -/
def M32 : Nat := 4294967296

/-- 32-bit left rotation. -/
def rotl (n w : Nat) : Nat := ((w <<< n) ||| (w >>> (32 - n))) % M32

/-- SHA-1 round function: Ch, Parity, Maj, Parity. -/
def sha1F (t b c d : Nat) : Nat :=
  if t < 20 then (b &&& c) ||| ((Nat.xor b 4294967295) &&& d)
  else if t < 40 then Nat.xor (Nat.xor b c) d
  else if t < 60 then (b &&& c) ||| (b &&& d) ||| (c &&& d)
  else Nat.xor (Nat.xor b c) d

/-- SHA-1 round constants. -/
def sha1K (t : Nat) : Nat :=
  if t < 20 then 1518500249
  else if t < 40 then 1859775393
  else if t < 60 then 2400959708
  else 3395469782

/-- Message-schedule expansion `w[i] = rotl1 (w[i-3] ^ w[i-8] ^ w[i-14] ^ w[i-16])`,
appending the given number of extra words. -/
def expandWords (ws : List Nat) : Nat → List Nat
  | 0 => ws
  | Nat.succ k =>
      let i := ws.length
      let w := rotl 1 (Nat.xor (Nat.xor (ws.getD (i - 3) 0) (ws.getD (i - 8) 0))
        (Nat.xor (ws.getD (i - 14) 0) (ws.getD (i - 16) 0)))
      expandWords (ws ++ [w]) k

/-- One SHA-1 compression round. -/
def sha1Round (st : Nat × Nat × Nat × Nat × Nat) (t w : Nat) :
    Nat × Nat × Nat × Nat × Nat :=
  match st with
  | (a, b, c, d, e) =>
      ((rotl 5 a + sha1F t b c d + e + w + sha1K t) % M32, a, rotl 30 b, c, d)

/-- Run the numbered compression rounds over the schedule. -/
def sha1Rounds : Nat → List Nat → Nat × Nat × Nat × Nat × Nat →
    Nat × Nat × Nat × Nat × Nat
  | _, [], st => st
  | t, w :: rest, st => sha1Rounds (t + 1) rest (sha1Round st t w)

/-- Split into 4-byte groups (the padded input is a multiple of 64 bytes). -/
def chunk4 : List Nat → List (List Nat)
  | b0 :: b1 :: b2 :: b3 :: rest => [b0, b1, b2, b3] :: chunk4 rest
  | [] => []
  | rest => [rest]

/-- Big-endian word from its bytes. -/
def wordOfBytes (bs : List Nat) : Nat :=
  bs.foldl (fun acc b => acc * 256 + b) 0

/-- One 64-byte block through the SHA-1 compression function. -/
def processBlock (h0 h1 h2 h3 h4 : Nat) (block : List Nat) :
    Nat × Nat × Nat × Nat × Nat :=
  let ws := expandWords ((chunk4 block).map wordOfBytes) 64
  match sha1Rounds 0 ws (h0, h1, h2, h3, h4) with
  | (a, b, c, d, e) =>
      ((h0 + a) % M32, (h1 + b) % M32, (h2 + c) % M32, (h3 + d) % M32,
       (h4 + e) % M32)

/-- Split the padded message into 64-byte blocks (fuel-driven). -/
def blocksGo : Nat → List Nat → List (List Nat)
  | 0, _ => []
  | _, [] => []
  | Nat.succ fuel, msg => msg.take 64 :: blocksGo fuel (msg.drop 64)

def toBlocks (msg : List Nat) : List (List Nat) := blocksGo msg.length msg

/-- 64-bit big-endian encoding. -/
def be64 (n : Nat) : List Nat :=
  [(n >>> 56) % 256, (n >>> 48) % 256, (n >>> 40) % 256, (n >>> 32) % 256,
   (n >>> 24) % 256, (n >>> 16) % 256, (n >>> 8) % 256, n % 256]

/-- 32-bit big-endian encoding. -/
def be32 (n : Nat) : List Nat :=
  [(n >>> 24) % 256, (n >>> 16) % 256, (n >>> 8) % 256, n % 256]

/-- SHA-1 padding: `0x80`, zeros to 56 mod 64, 8-byte big-endian bit length. -/
def sha1Pad (msg : List Nat) : List Nat :=
  let len := msg.length
  let z := (120 - ((len + 1) % 64)) % 64
  msg ++ [128] ++ List.replicate z 0 ++ be64 (8 * len)

/-- SHA-1 digest (20 bytes) of a byte string. -/
def sha1 (msg : List Nat) : List Nat :=
  let final := (toBlocks (sha1Pad msg)).foldl
    (fun st block =>
      match st with
      | (h0, h1, h2, h3, h4) => processBlock h0 h1 h2 h3 h4 block)
    (1732584193, 4023233417, 2562383102, 271733878, 3285377520)
  match final with
  | (h0, h1, h2, h3, h4) => be32 h0 ++ be32 h1 ++ be32 h2 ++ be32 h3 ++ be32 h4

/-- `Uuid::new_v5(ns, name)` (RFC 4122): first 16 bytes of
`sha1(ns_bytes ++ name)`, version nibble forced to 5 and variant bits to
`10`, as the `uuid` crate's `Builder::from_sha1_bytes` does. -/
def uuidV5 (ns name : List Nat) : List Nat :=
  ((sha1 (ns ++ name)).take 16).mapIdx (fun i b =>
    if i = 6 then b % 16 + 80
    else if i = 8 then b % 64 + 128
    else b)

/-- `Uuid::NAMESPACE_DNS` bytes. -/
def NAMESPACE_DNS : List Nat :=
  [107, 167, 184, 16, 157, 173, 17, 209, 128, 180, 0, 192, 79, 212, 48, 200]

/-- The bytes of `"github.com/hv0905/NekoImageGallery"`. -/
def repoNameBytes : List Nat :=
  [103, 105, 116, 104, 117, 98, 46, 99, 111, 109, 47, 104, 118, 48, 57, 48,
   53, 47, 78, 101, 107, 111, 73, 109, 97, 103, 101, 71, 97, 108, 108, 101,
   114, 121]

/-- `NekoUuid::new()`: the application namespace
`v5(NAMESPACE_DNS, "github.com/hv0905/NekoImageGallery")`. -/
def nekoNamespace : List Nat := uuidV5 NAMESPACE_DNS repoNameBytes

/-- ASCII code of the lowercase hex digit for `n < 16`. -/
def hexDigit (n : Nat) : Nat := if n < 10 then 48 + n else 87 + n

/-- `hex::encode` of a byte string, as ASCII codes. -/
def hexBytes (bytes : List Nat) : List Nat :=
  bytes.flatMap (fun b => [hexDigit (b / 16), hexDigit (b % 16)])

/-- `NekoUuid::generate(data)`: v5 of the hex-encoded SHA-1 of the data,
under the application namespace. -/
def generate (data : List Nat) : List Nat :=
  uuidV5 nekoNamespace (hexBytes (sha1 data))

/-- `Uuid::to_string()`: hyphenated lowercase hex, as ASCII codes. -/
def uuidToAscii (bytes : List Nat) : List Nat :=
  let cs := hexBytes bytes
  cs.take 8 ++ [45] ++ (cs.drop 8).take 4 ++ [45] ++ (cs.drop 12).take 4
    ++ [45] ++ (cs.drop 16).take 4 ++ [45] ++ cs.drop 20

/-- The bytes `b"qwq"`. -/
def qwqBytes : List Nat := [113, 119, 113]

set_option maxRecDepth 40000 in
/-- **C7.** UUID derivation is deterministic: `generate(bytes)` is exactly
`v5(app_ns, hex(sha1(bytes)))` with the fixed application namespace, and on
the bytes `"qwq"` it yields the UUID `6c439572-44ed-5ba9-a6fb-627b06406c73`
(checked both as raw bytes and as the hyphenated rendering). -/
theorem uuid_derivation_stability :
    (∀ data : List Nat,
      generate data = uuidV5 nekoNamespace (hexBytes (sha1 data))) ∧
    generate qwqBytes =
      [108, 67, 149, 114, 68, 237, 91, 169, 166, 251, 98, 123, 6, 64, 108, 115] ∧
    uuidToAscii (generate qwqBytes) =
      "6c439572-44ed-5ba9-a6fb-627b06406c73".toList.map Char.toNat := by
  refine ⟨fun _ => rfl, ?_, ?_⟩
  · decide
  · decide

end NekoUuidM

namespace PointExplorerM

/-! ### `src/shared/src/point_explorer.rs`

`PointExplorer<T, D>` stores an `IndexMap<Uuid, [T; D]>`: an
insertion-ordered map, embedded as an association list in which `insert`
overwrites an existing key in place (keeping its index) and otherwise
appends. Vector entries are embedded as rationals and the fixed-size array
`[T; D]` as a list whose length the conversion checks. -/

abbrev Uuid := Nat
abbrev Vec := List Rat

/-- `IndexMap::insert`. -/
def imInsert (m : List (Uuid × Vec)) (id : Uuid) (v : Vec) :
    List (Uuid × Vec) :=
  if m.any (fun p => p.1 == id) then
    m.map (fun p => if p.1 == id then (id, v) else p)
  else m ++ [(id, v)]

/-- `index2uuid`: `point_vector_map.get_index(index).map(|(id, _)| id)`. -/
def index2uuid (m : List (Uuid × Vec)) (i : Nat) : Option Uuid :=
  (m[i]?).map Prod.fst

/-- `uuid2index`: `point_vector_map.get_full(point_id).map(|(idx, _, _)| idx)`. -/
def uuid2index : List (Uuid × Vec) → Uuid → Option Nat
  | [], _ => none
  | p :: rest, id =>
      if p.1 == id then some 0 else (uuid2index rest id).map (· + 1)

/-- **C8.** For every id present in a `PointExplorer`,
`index2uuid(uuid2index(id)) == id`: the two maps realise the
insertion-order bijection on the keys present. -/
theorem index_bijection (m : List (Uuid × Vec)) (id : Uuid)
    (h : id ∈ m.map Prod.fst) :
    (uuid2index m id).bind (index2uuid m) = some id := by
  induction m with
  | nil => simp at h
  | cons p rest ih =>
      by_cases hp : p.1 = id
      · have hbeq : (p.1 == id) = true := by simp [hp]
        simp [uuid2index, hbeq, index2uuid, hp]
      · have hbeq : (p.1 == id) = false := by simp [hp]
        have hmem : id ∈ rest.map Prod.fst := by
          rcases List.mem_map.mp h with ⟨q, hq, hqid⟩
          rcases List.mem_cons.mp hq with hq1 | hq1
          · exact absurd (hq1 ▸ hqid) hp
          · exact List.mem_map.mpr ⟨q, hq1, hqid⟩
        have ihm := ih hmem
        cases hfind : uuid2index rest id with
        | none => rw [hfind] at ihm; simp at ihm
        | some i =>
            rw [hfind] at ihm
            have ihm2 : index2uuid rest i = some id := ihm
            have hgoal : (uuid2index (p :: rest) id).bind (index2uuid (p :: rest))
                = index2uuid (p :: rest) (i + 1) := by
              simp [uuid2index, hbeq, hfind]
            rw [hgoal]
            have hshift : index2uuid (p :: rest) (i + 1) = index2uuid rest i := by
              simp [index2uuid]
            rw [hshift]
            exact ihm2

/-- A concrete two-point explorer built with `imInsert`. -/
def pe0 : List (Uuid × Vec) :=
  imInsert (imInsert [] 5 [mkRat 1 2]) 7 [mkRat 1 3]

/-- Witness for C8 on the concrete explorer `pe0` at the key `7`. -/
theorem index_bijection_witness :
    (uuid2index pe0 7).bind (index2uuid pe0) = some 7 :=
  index_bijection pe0 7 (by decide)

/-- `slice.try_into::<[T; D]>()`: succeeds exactly when the slice has
length `D`. -/
def tryIntoArr (D : Nat) (v : Vec) : Option Vec :=
  if v.length = D then some v else none

/-- `PointExplorer::insert`: `none` models reaching the
`.expect("Vector length must match D")` panic branch. -/
def insert (D : Nat) (m : List (Uuid × Vec)) (id : Uuid) (v : Vec) :
    Option (List (Uuid × Vec)) :=
  (tryIntoArr D v).map (fun arr => imInsert m id arr)

/-- `PointExplorer::extend`: `IndexMap::extend` over the converted pairs. -/
def extend (D : Nat) (m : List (Uuid × Vec)) (pts : List (Uuid × Vec)) :
    Option (List (Uuid × Vec)) :=
  pts.foldl (fun acc p => acc.bind (fun mm => insert D mm p.1 p.2)) (some m)

theorem extend_isSome (D : Nat) :
    ∀ (pts : List (Uuid × Vec)) (m : List (Uuid × Vec)),
      (∀ p ∈ pts, p.2.length = D) → (extend D m pts).isSome := by
  intro pts
  induction pts with
  | nil => intro m _; rfl
  | cons p rest ih =>
      intro m hall
      have hstep : extend D m (p :: rest) = extend D (imInsert m p.1 p.2) rest := by
        unfold extend
        simp only [List.foldl_cons, Option.bind_some]
        unfold insert tryIntoArr
        rw [if_pos (hall p (List.mem_cons_self _ _))]
        rfl
      rw [hstep]
      exact ih _ (fun q hq => hall q (List.mem_cons_of_mem _ hq))

/-- **C10.** `insert` succeeds (no panic) exactly when the supplied vector
has length `D` — otherwise the slice-to-array conversion failure branch is
reached — and `extend` is total whenever every supplied vector has length
`D`, so under the documented precondition the panic branch is unreachable. -/
theorem insert_extend_total (D : Nat) (m : List (Uuid × Vec)) (id : Uuid)
    (v : Vec) (pts : List (Uuid × Vec)) :
    (v.length = D → insert D m id v = some (imInsert m id v)) ∧
    (v.length ≠ D → insert D m id v = none) ∧
    ((∀ p ∈ pts, p.2.length = D) → (extend D m pts).isSome) := by
  refine ⟨?_, ?_, fun h => extend_isSome D pts m h⟩
  · intro hlen
    unfold insert tryIntoArr
    rw [if_pos hlen]
    rfl
  · intro hlen
    unfold insert tryIntoArr
    rw [if_neg hlen]
    rfl

/-- Witness for C10 at `D = 1`: a length-1 vector inserts, a length-0
vector reaches the panic branch, and a well-formed batch extends. -/
theorem insert_extend_total_witness :
    insert 1 [] 3 [mkRat 1 2] = some (imInsert [] 3 [mkRat 1 2]) ∧
    insert 1 [] 3 [] = none ∧
    (extend 1 [] [(4, [mkRat 1 2])]).isSome :=
  ⟨(insert_extend_total 1 [] 3 [mkRat 1 2] []).1 rfl,
   (insert_extend_total 1 [] 3 [] []).2.1 (by decide),
   (insert_extend_total 1 [] 3 [] [(4, [mkRat 1 2])]).2.2 (by decide)⟩

end PointExplorerM

namespace StructureM

/-! ### `NekoPointExt::ext` (`src/shared/src/structure.rs`)

`self.file_path.rsplit('.').next().unwrap()`. Strings are embedded as
character lists; `rsplit('.')` yields the dot-separated segments from the
end, so `.next()` is the last segment of the forward split (`rsplit` always
yields at least one segment, so the `unwrap` never fails). -/

/-- The segments of `file_path.split('.')`, in order. -/
def splitOnDot : List Char → List (List Char)
  | [] => [[]]
  | c :: rest =>
      if c = '.' then [] :: splitOnDot rest
      else
        match splitOnDot rest with
        | [] => [[c]]
        | s :: ss => (c :: s) :: ss

/-- `ext()`: the first segment of `rsplit('.')`, i.e. the last segment of
the forward split. -/
def ext (fp : List Char) : List Char := (splitOnDot fp).getLastD []

theorem splitOnDot_ne_nil : ∀ fp : List Char, splitOnDot fp ≠ [] := by
  intro fp
  cases fp with
  | nil => simp [splitOnDot]
  | cons c rest =>
      unfold splitOnDot
      by_cases hc : c = '.'
      · rw [if_pos hc]; simp
      · rw [if_neg hc]
        cases splitOnDot rest with
        | nil => simp
        | cons s ss => simp

theorem splitOnDot_noDot : ∀ fp : List Char, '.' ∉ fp → splitOnDot fp = [fp] := by
  intro fp
  induction fp with
  | nil => intro _; rfl
  | cons c rest ih =>
      intro hnd
      have hc : c ≠ '.' := fun h => hnd (by rw [h]; exact List.mem_cons_self _ _)
      have hrest : '.' ∉ rest := fun h => hnd (List.mem_cons_of_mem _ h)
      unfold splitOnDot
      rw [if_neg hc, ih hrest]

theorem splitOnDot_singleton : ∀ (fp s : List Char),
    splitOnDot fp = [s] → s = fp ∧ '.' ∉ fp := by
  intro fp
  induction fp with
  | nil =>
      intro s h
      have : s = [] := by simpa [splitOnDot] using h.symm
      exact ⟨this, by simp⟩
  | cons c rest ih =>
      intro s h
      unfold splitOnDot at h
      by_cases hc : c = '.'
      · rw [if_pos hc] at h
        have : splitOnDot rest = [] := by
          have := congrArg List.tail h
          simpa using this
        exact absurd this (splitOnDot_ne_nil rest)
      · rw [if_neg hc] at h
        cases hS : splitOnDot rest with
        | nil => exact absurd hS (splitOnDot_ne_nil rest)
        | cons s0 ss0 =>
            rw [hS] at h
            have hcons : (c :: s0) :: ss0 = [s] := h
            have hs : s = c :: s0 := by
              have := congrArg List.head? hcons
              simpa using this.symm
            have hss : ss0 = [] := by
              have := congrArg List.tail hcons
              simpa using this
            rw [hss] at hS
            obtain ⟨hs0, hnd⟩ := ih s0 hS
            refine ⟨by rw [hs, hs0], ?_⟩
            intro hmem
            rcases List.mem_cons.mp hmem with h1 | h1
            · exact hc h1.symm
            · exact hnd h1

/-- **C9.** `ext()` returns the substring of `file_path` after the last
`'.'`: the result contains no `'.'`, the path is some prefix followed by
the result, that prefix is empty or ends with `'.'`, and in particular on a
path containing no `'.'` the result is the whole path. -/
theorem ext_after_last_dot (fp : List Char) :
    ('.' ∉ ext fp) ∧
    (∃ pre, fp = pre ++ ext fp ∧
      ((pre = [] ∧ '.' ∉ fp) ∨ ∃ pre2, pre = pre2 ++ ['.'])) ∧
    ('.' ∉ fp → ext fp = fp) := by
  induction fp with
  | nil =>
      refine ⟨by simp [ext, splitOnDot], ⟨[], by simp [ext, splitOnDot], ?_⟩,
        fun _ => by simp [ext, splitOnDot]⟩
      exact Or.inl ⟨rfl, by simp⟩
  | cons c rest ih =>
      obtain ⟨ihnd, ⟨pre, hpre, hcase⟩, ihnodot⟩ := ih
      by_cases hc : c = '.'
      · have hsplitc : splitOnDot (c :: rest) = [] :: splitOnDot rest := by
          simp only [splitOnDot]
          rw [if_pos hc]
        have hstep : ext (c :: rest) = ext rest := by
          unfold ext
          rw [hsplitc, List.getLastD_cons]
        refine ⟨by rw [hstep]; exact ihnd, ⟨c :: pre, ?_, ?_⟩, ?_⟩
        · rw [hstep, List.cons_append, ← hpre]
        · rcases hcase with ⟨hpe, _⟩ | ⟨pre2, hp2⟩
          · exact Or.inr ⟨[], by rw [hpe, hc]; rfl⟩
          · exact Or.inr ⟨c :: pre2, by rw [hp2, hc]; rfl⟩
        · intro hnodot
          exact absurd (by rw [hc]; exact List.mem_cons_self _ _ : ('.') ∈ c :: rest)
            hnodot
      · cases hS : splitOnDot rest with
        | nil => exact absurd hS (splitOnDot_ne_nil rest)
        | cons s ss =>
            have hsplit : splitOnDot (c :: rest) = (c :: s) :: ss := by
              unfold splitOnDot
              rw [if_neg hc, hS]
            cases hss : ss with
            | nil =>
                rw [hss] at hS hsplit
                obtain ⟨hs, hnodot⟩ := splitOnDot_singleton rest s hS
                have hext : ext (c :: rest) = c :: rest := by
                  unfold ext
                  rw [hsplit, hs]
                  rfl
                have hnodotall : '.' ∉ c :: rest := by
                  intro hmem
                  rcases List.mem_cons.mp hmem with h1 | h1
                  · exact hc h1.symm
                  · exact hnodot h1
                exact ⟨by rw [hext]; exact hnodotall, ⟨[], by rw [hext]; rfl,
                  Or.inl ⟨rfl, hnodotall⟩⟩, fun _ => hext⟩
            | cons s2 ss2 =>
                rw [hss] at hS hsplit
                have hstep : ext (c :: rest) = ext rest := by
                  unfold ext
                  rw [hsplit, hS]
                  rw [List.getLastD_eq_getLast?, List.getLastD_eq_getLast?]
                  rw [List.getLast?_cons_cons, List.getLast?_cons_cons]
                have hdotrest : '.' ∈ rest := by
                  by_contra hnd
                  have := splitOnDot_noDot rest hnd
                  rw [hS] at this
                  simp at this
                refine ⟨by rw [hstep]; exact ihnd, ⟨c :: pre, ?_, ?_⟩, ?_⟩
                · rw [hstep, List.cons_append, ← hpre]
                · rcases hcase with ⟨_, hnodot⟩ | ⟨pre2, hp2⟩
                  · exact absurd hdotrest hnodot
                  · exact Or.inr ⟨c :: pre2, by rw [hp2]; rfl⟩
                · intro hnodot
                  exact absurd (List.mem_cons_of_mem _ hdotrest) hnodot

/-- Witness for C9 on the dot-free path `"nodot"` (the final conjunct's
hypothesis discharged concretely). -/
theorem ext_after_last_dot_witness :
    ext ['n', 'o', 'd', 'o', 't'] = ['n', 'o', 'd', 'o', 't'] :=
  (ext_after_last_dot ['n', 'o', 'd', 'o', 't']).2.2 (by decide)

end StructureM

namespace Stage11

/-! ### The mutation planner (`src/stage11/src/main.rs`)

Per `FinalClassification` item, `main` accumulates `keep_point_list`,
`discard_point_list`, a per-kept-id list of category sets
(`into_keep_tags`, which pushes nothing when the id has no categories
entry) and one pooled discard category set (`into_duplicate_tags`), then
forms `transfer_tag_list` by extending each kept set with the discard set;
`assert_eq!(transfer_tag_list.len(), keep_point_list.len())` guards the
task (its failure — a panic — is embedded as `none`). `HashSet<&str>` is
embedded as `Finset String`. -/

abbrev Uuid := Nat

/-- The field of `NekoPoint` stage 11 reads. -/
structure NekoPoint where
  categories : Option (List String)

abbrev MetaMap := Uuid → Option NekoPoint

/-- `metadata.get(uuid).and_then(|p| p.categories.as_ref())`. -/
def catsListOf (metadata : MetaMap) (u : Uuid) : Option (List String) :=
  (metadata u).bind (fun p => p.categories)

/-- `fn into_keep_tags`: push the kept id's deduplicated category set, only
when a categories entry exists. -/
def into_keep_tags (uuid : Uuid) (tagsSets : List (Finset String))
    (metadata : MetaMap) : List (Finset String) :=
  match catsListOf metadata uuid with
  | some cats => tagsSets ++ [cats.toFinset]
  | none => tagsSets

/-- `fn into_duplicate_tags`: union the id's categories into the pooled
discard tag set. -/
def into_duplicate_tags (uuid : Uuid) (tagsSet : Finset String)
    (metadata : MetaMap) : Finset String :=
  match catsListOf metadata uuid with
  | some cats => tagsSet ∪ cats.toFinset
  | none => tagsSet

/-- `FinalClassification` (`src/shared/src/structure.rs`); the invalid
group carries its failure reasons. -/
structure FinalClassification where
  kept_text_anomalies_group : Option (List Uuid)
  triaged_gif_and_invalid_group : Option (List Uuid × List String)
  triaged_gif_and_discard_same_frame_group : Option (List Uuid)
  triaged_gif_and_then_will_keep_group : Option (List Uuid)
  triaged_gif_and_then_will_delete_group : Option (List Uuid)
  kept_non_gif : Option Uuid
  other_need_delete_group : Option (List Uuid)

/-- `ReSetPointTask`. -/
structure ReSetPointTask where
  keep_point_list : List Uuid
  discard_point_list : List Uuid
  transfer_tag_list : List (Finset String)
  deriving DecidableEq

/-- `keep_point_list` in the order `main` extends it. -/
def keepIds (item : FinalClassification) : List Uuid :=
  (item.kept_text_anomalies_group.getD []) ++
  (item.triaged_gif_and_then_will_keep_group.getD []) ++
  (match item.kept_non_gif with | some u => [u] | none => [])

/-- `discard_point_list` in the order `main` extends it. -/
def discardIds (item : FinalClassification) : List Uuid :=
  ((item.triaged_gif_and_invalid_group.map Prod.fst).getD []) ++
  (item.triaged_gif_and_discard_same_frame_group.getD []) ++
  (item.triaged_gif_and_then_will_delete_group.getD []) ++
  (item.other_need_delete_group.getD [])

/-- `keep_point_tags_set_list`: `into_keep_tags` folded over the kept ids
in processing order. -/
def keepTagSets (item : FinalClassification) (metadata : MetaMap) :
    List (Finset String) :=
  (keepIds item).foldl (fun acc u => into_keep_tags u acc metadata) []

/-- `discard_point_tags_set`: `into_duplicate_tags` folded over the discard
ids. -/
def discardTagSet (item : FinalClassification) (metadata : MetaMap) :
    Finset String :=
  (discardIds item).foldl (fun acc u => into_duplicate_tags u acc metadata) ∅

/-- The planner body for one source cluster; `none` embeds the
`assert_eq!(transfer_tag_list.len(), keep_point_list.len())` panic. -/
def buildTask (item : FinalClassification) (metadata : MetaMap) :
    Option ReSetPointTask :=
  let keep := keepIds item
  let transfer := (keepTagSets item metadata).map
    (fun km => km ∪ discardTagSet item metadata)
  if transfer.length = keep.length then
    some ⟨keep, discardIds item, transfer⟩
  else none

/-- Modelled from the spec claim (not from the code): the deduplicated
union of `metadata(id).categories` across **every** id in the cluster,
keep and discard alike. -/
def specClusterTagUnion (item : FinalClassification) (metadata : MetaMap) :
    Finset String :=
  ((keepIds item ++ discardIds item).map
    (fun u => ((catsListOf metadata u).getD []).toFinset)).foldl (· ∪ ·) ∅

/-- The claim as stated, at one input: every produced task has one transfer
entry per kept id and every transfer entry equals the cluster-wide
category union. -/
def C3ClaimAt (item : FinalClassification) (metadata : MetaMap) : Prop :=
  ∀ task, buildTask item metadata = some task →
    task.transfer_tag_list.length = task.keep_point_list.length ∧
    ∀ ts ∈ task.transfer_tag_list, ts = specClusterTagUnion item metadata

/-- Metadata for the counterexample: id 1 has category `"a"`, id 2 has
category `"b"`. -/
def c3meta : MetaMap := fun u =>
  if u = 1 then some ⟨some ["a"]⟩
  else if u = 2 then some ⟨some ["b"]⟩
  else none

/-- Counterexample cluster: two kept text anomalies, no discards. -/
def c3item : FinalClassification :=
  ⟨some [1, 2], none, none, none, none, none, none⟩

/-- The task the planner actually builds from `c3item` / `c3meta`. -/
def c3task : ReSetPointTask :=
  ⟨[1, 2], [], [{"a"}, {"b"}]⟩

/-- **C3, counterexample.** On a cluster with kept ids `[1, 2]`, no
discards, and categories `1 ↦ {"a"}`, `2 ↦ {"b"}`, the planner builds
`transfer_tags = [{"a"}, {"b"}]`, but the cluster-wide union is
`{"a", "b"}`: `transfer_tags[0]` omits the other kept id's category, so
transfer tags are **not** the union over every id in the cluster. -/
theorem transfer_tags_counterexample : ¬ C3ClaimAt c3item c3meta := by
  intro h
  have hb : buildTask c3item c3meta = some c3task := by decide
  obtain ⟨-, hall⟩ := h c3task hb
  have h1 : ({"a"} : Finset String) ∈ c3task.transfer_tag_list := by decide
  have h2 : ¬ (({"a"} : Finset String) = specClusterTagUnion c3item c3meta) := by
    decide
  exact h2 (hall _ h1)

/-- Kept ids that actually have a categories entry — exactly those for
which `into_keep_tags` pushes a set. -/
def keepCatIds (item : FinalClassification) (metadata : MetaMap) : List Uuid :=
  (keepIds item).filter (fun u => (catsListOf metadata u).isSome)

theorem foldl_into_keep_tags (metadata : MetaMap) :
    ∀ (l : List Uuid) (acc : List (Finset String)),
      l.foldl (fun acc u => into_keep_tags u acc metadata) acc =
        acc ++ (l.filter (fun u => (catsListOf metadata u).isSome)).map
          (fun u => ((catsListOf metadata u).getD []).toFinset) := by
  intro l
  induction l with
  | nil => intro acc; simp
  | cons u rest ih =>
      intro acc
      have hstep : (u :: rest).foldl (fun acc u => into_keep_tags u acc metadata) acc
          = rest.foldl (fun acc u => into_keep_tags u acc metadata)
              (into_keep_tags u acc metadata) := rfl
      rw [hstep, ih]
      cases hcats : catsListOf metadata u with
      | some cats =>
          have hk : into_keep_tags u acc metadata = acc ++ [cats.toFinset] := by
            unfold into_keep_tags
            rw [hcats]
          have hf : (u :: rest).filter (fun u => (catsListOf metadata u).isSome)
              = u :: rest.filter (fun u => (catsListOf metadata u).isSome) := by
            rw [List.filter_cons_of_pos (by rw [hcats]; rfl)]
          rw [hk, hf, List.map_cons, List.append_assoc]
          rw [show ((catsListOf metadata u).getD []).toFinset = cats.toFinset by
            rw [hcats]; rfl]
          rfl
      | none =>
          have hk : into_keep_tags u acc metadata = acc := by
            unfold into_keep_tags
            rw [hcats]
          have hf : (u :: rest).filter (fun u => (catsListOf metadata u).isSome)
              = rest.filter (fun u => (catsListOf metadata u).isSome) := by
            rw [List.filter_cons_of_neg (by rw [hcats]; simp)]
          rw [hk, hf]

theorem mem_foldl_into_duplicate_tags (metadata : MetaMap) :
    ∀ (l : List Uuid) (acc : Finset String) (s : String),
      s ∈ l.foldl (fun acc u => into_duplicate_tags u acc metadata) acc ↔
        s ∈ acc ∨ ∃ u ∈ l, ∃ cats, catsListOf metadata u = some cats ∧ s ∈ cats := by
  intro l
  induction l with
  | nil => intro acc s; simp
  | cons u rest ih =>
      intro acc s
      have hstep : (u :: rest).foldl (fun acc u => into_duplicate_tags u acc metadata) acc
          = rest.foldl (fun acc u => into_duplicate_tags u acc metadata)
              (into_duplicate_tags u acc metadata) := rfl
      rw [hstep, ih]
      cases hcats : catsListOf metadata u with
      | some cats =>
          have hd : into_duplicate_tags u acc metadata = acc ∪ cats.toFinset := by
            unfold into_duplicate_tags
            rw [hcats]
          rw [hd]
          simp only [Finset.mem_union, List.mem_toFinset]
          constructor
          · rintro ((hs | hs) | ⟨u2, hu2, cats2, hc2, hs2⟩)
            · exact Or.inl hs
            · exact Or.inr ⟨u, List.mem_cons_self _ _, cats, hcats, hs⟩
            · exact Or.inr ⟨u2, List.mem_cons_of_mem _ hu2, cats2, hc2, hs2⟩
          · rintro (hs | ⟨u2, hu2, cats2, hc2, hs2⟩)
            · exact Or.inl (Or.inl hs)
            · rcases List.mem_cons.mp hu2 with h1 | h1
              · subst h1
                rw [hcats] at hc2
                refine Or.inl (Or.inr ?_)
                injection hc2 with hh
                rw [hh]
                exact hs2
              · exact Or.inr ⟨u2, h1, cats2, hc2, hs2⟩
      | none =>
          have hd : into_duplicate_tags u acc metadata = acc := by
            unfold into_duplicate_tags
            rw [hcats]
          rw [hd]
          constructor
          · rintro (hs | ⟨u2, hu2, cats2, hc2, hs2⟩)
            · exact Or.inl hs
            · exact Or.inr ⟨u2, List.mem_cons_of_mem _ hu2, cats2, hc2, hs2⟩
          · rintro (hs | ⟨u2, hu2, cats2, hc2, hs2⟩)
            · exact Or.inl hs
            · rcases List.mem_cons.mp hu2 with h1 | h1
              · subst h1
                rw [hcats] at hc2
                exact absurd hc2 (by simp)
              · exact Or.inr ⟨u2, h1, cats2, hc2, hs2⟩

/-- **C3, amended.** Whenever the planner builds a task (i.e. the
`assert_eq!` guard passes), `transfer_tags` has exactly one entry per kept
id; its `i`-th entry is the deduplicated union of the `i`-th kept id's own
categories with the categories of every **discard** id of the cluster —
other kept ids' categories are not included; and the pooled discard set is
exactly the union over discard ids. One entry is pushed only per kept id
that has a categories entry, so the guard passes exactly when every kept
id has one. -/
theorem transfer_tags_amended (item : FinalClassification) (metadata : MetaMap)
    (task : ReSetPointTask) (hb : buildTask item metadata = some task) :
    task.keep_point_list = keepIds item ∧
    task.transfer_tag_list.length = task.keep_point_list.length ∧
    (∀ i, i < task.transfer_tag_list.length →
      ∃ u cats, (keepCatIds item metadata)[i]? = some u ∧
        catsListOf metadata u = some cats ∧
        task.transfer_tag_list[i]? =
          some (cats.toFinset ∪ discardTagSet item metadata)) ∧
    (∀ s, s ∈ discardTagSet item metadata ↔
      ∃ u ∈ discardIds item, ∃ cats,
        catsListOf metadata u = some cats ∧ s ∈ cats) := by
  have hsets : keepTagSets item metadata =
      (keepCatIds item metadata).map
        (fun u => ((catsListOf metadata u).getD []).toFinset) := by
    unfold keepTagSets keepCatIds
    rw [foldl_into_keep_tags]
    rfl
  simp only [buildTask] at hb
  by_cases hcond : ((keepTagSets item metadata).map
      (fun km => km ∪ discardTagSet item metadata)).length = (keepIds item).length
  · rw [if_pos hcond] at hb
    have htask : task = ⟨keepIds item, discardIds item,
        (keepTagSets item metadata).map
          (fun km => km ∪ discardTagSet item metadata)⟩ :=
      (Option.some.inj hb).symm
    subst htask
    refine ⟨rfl, hcond, ?_, ?_⟩
    · intro i hi
      rw [hsets] at hi ⊢
      simp only [List.length_map] at hi
      have hu : (keepCatIds item metadata)[i]? = some ((keepCatIds item metadata)[i]) :=
        List.getElem?_eq_getElem hi
      have humem : (keepCatIds item metadata)[i] ∈ keepCatIds item metadata :=
        List.getElem_mem hi
      have hsome : (catsListOf metadata ((keepCatIds item metadata)[i])).isSome :=
        (List.mem_filter.mp humem).2
      obtain ⟨cats, hcats⟩ := Option.isSome_iff_exists.mp hsome
      refine ⟨(keepCatIds item metadata)[i], cats, hu, hcats, ?_⟩
      rw [List.getElem?_map, List.getElem?_map, hu]
      simp only [Option.map_some']
      rw [hcats]
      rfl
    · intro s
      have := mem_foldl_into_duplicate_tags metadata (discardIds item) ∅ s
      unfold discardTagSet
      rw [this]
      simp
  · rw [if_neg hcond] at hb
    exact absurd hb (by simp)

/-- Witness for the amended C3 on the concrete counterexample cluster. -/
theorem transfer_tags_amended_witness :
    c3task.keep_point_list = keepIds c3item ∧
    c3task.transfer_tag_list.length = c3task.keep_point_list.length ∧
    (∀ i, i < c3task.transfer_tag_list.length →
      ∃ u cats, (keepCatIds c3item c3meta)[i]? = some u ∧
        catsListOf c3meta u = some cats ∧
        c3task.transfer_tag_list[i]? =
          some (cats.toFinset ∪ discardTagSet c3item c3meta)) ∧
    (∀ s, s ∈ discardTagSet c3item c3meta ↔
      ∃ u ∈ discardIds c3item, ∃ cats,
        catsListOf c3meta u = some cats ∧ s ∈ cats) :=
  transfer_tags_amended c3item c3meta c3task (by decide)

end Stage11
